import Mathlib

/-!
Shallow embedding of `src/src/uci.cpp` (the Honey/Stockfish UCI session layer).

The embedding models the build in which the `Add_Features` preprocessor flag is
not defined (the plain UCI vocabulary); the `#ifdef Add_Features` branches of
the source are therefore absent, as in the default configuration.

External subsystems that the spec declares out of scope (move generation and
legality, the internals of `Position`, the search, the wall clock) enter as
explicit parameters: the legal-move list of a position is an oracle
`legal : Pos → List Mv`, the clock is a sequence `Nat → Int` of successive
`now()` results, and the nodes reported by a finished search are an oracle
indexed by the ordinal of the `go` command.
-/

namespace Honey

/-- Modelled from the spec: square indexing from `types.h`, which is not part
of the given source. A square is an index whose file is the low three bits and
whose rank is the index divided by eight, as assumed by the codec description
(file letter `a` plus file, rank digit `1` plus rank). -/
def file_of (s : Nat) : Nat := s % 8

/-- Modelled from the spec: rank of a square index (see `file_of`). -/
def rank_of (s : Nat) : Nat := s / 8

/-- Modelled from the spec: square built from a file and a rank. -/
def make_square (f r : Nat) : Nat := 8 * r + f

/-- File C, used when a queenside castling move is normalized. -/
def FILE_C : Nat := 2

/-- File G, used when a kingside castling move is normalized. -/
def FILE_G : Nat := 6

/-- Modelled from the spec: the move-type tag of `types.h` (normal move,
promotion, en passant, castling), which the codec inspects. -/
inductive MoveType
  | NORMAL
  | PROMOTION
  | ENPASSANT
  | CASTLING
deriving DecidableEq

/-- Modelled from the spec: the payload of a proper move: origin square,
destination square, move type, and the promotion piece type (a piece-type
index used to select a letter out of `" pnbrqk"`). -/
structure MoveData where
  frm : Nat
  dst : Nat
  mtype : MoveType
  promo : Nat
deriving DecidableEq

/-- Modelled from the spec: a move value, either the `MOVE_NONE` sentinel, the
`MOVE_NULL` pass move, or a proper move. -/
inductive Mv
  | NONE
  | NULL
  | mk (d : MoveData)
deriving DecidableEq

/-- Modelled from the spec: the position entity. Its internals are out of
scope; for this core it is the root FEN text, the chess960 mode flag it was
set up with, and the sequence of moves applied to it since, which is exactly
what the handlers in this file read and write. -/
structure Pos where
  fen : String
  chess960 : Bool
  played : List Mv

/-- Embeds `pos.set(fen, chess960, ...)`: initialize a position from a FEN string and
the chess960 option (board mutation itself is external). -/
def Pos.set (fen : String) (c960 : Bool) : Pos := ⟨fen, c960, []⟩

/-- Embeds `pos.do_move(m, st)`: apply a move to the position (board mutation itself
is external; the model records the move). -/
def Pos.do_move (p : Pos) (m : Mv) : Pos := { p with played := p.played ++ [m] }

/-- An opaque `StateInfo` snapshot; the state chain `StateListPtr` is a list of
these, so that the chain length is observable. -/
def StateInfo : Type := Unit

/-- One opaque snapshot element, as produced by `emplace_back()`. -/
def StateInfo.unit : StateInfo := ()

/-- ASCII `tolower`, as used on the promotion letter of a 5-character move
token. -/
def asciiToLower (c : Char) : Char :=
  if 65 ≤ c.toNat ∧ c.toNat ≤ 90 then Char.ofNat (c.toNat + 32) else c

namespace UCI

/-- Embeds `UCI::square(s)`: the two-character algebraic name of a square, file
letter (`'a' + file_of(s)`) then rank digit (`'1' + rank_of(s)`). -/
def square (s : Nat) : String :=
  ⟨[Char.ofNat (97 + file_of s), Char.ofNat (49 + rank_of s)]⟩

/-- Embeds `UCI::move(m, chess960)`: coordinate notation for a move. `MOVE_NONE`
renders as `(none)`, `MOVE_NULL` as `0000`; a castling move has its
destination normalized to the king destination file unless chess960 notation
is requested; a promotion appends the letter `" pnbrqk"[promotion_type(m)]`. -/
def move (m : Mv) (chess960 : Bool) : String :=
  match m with
  | Mv.NONE => "(none)"
  | Mv.NULL => "0000"
  | Mv.mk d =>
    let t : Nat :=
      if d.mtype = MoveType.CASTLING ∧ ¬ chess960 then
        make_square (if d.frm < d.dst then FILE_G else FILE_C) (rank_of d.frm)
      else d.dst
    if d.mtype = MoveType.PROMOTION then
      (square d.frm ++ square t).push ((" pnbrqk".data).getD d.promo ' ')
    else
      square d.frm ++ square t

/-- The in-place normalization at the top of `UCI::to_move`: a 5-character
token has its last character lowercased (some clients send the promotion
letter in uppercase). -/
def norm5 (s : String) : String :=
  if s.length = 5 then ⟨s.data.set 4 (asciiToLower (s.data.getD 4 ' '))⟩ else s

/-- Embeds `UCI::to_move(pos, str)`: normalize the token, then linearly scan the
position's legal-move list (the external `MoveList<LEGAL>`, here the oracle
`legal`) and return the first legal move whose rendering under the position's
own chess960 flag equals the token; `MOVE_NONE` if none matches. -/
def to_move (legal : Pos → List Mv) (pos : Pos) (str : String) : Mv :=
  let str := norm5 str
  match (legal pos).find? (fun m => str == move m pos.chess960) with
  | some m => m
  | none => Mv.NONE

end UCI

/-- Modelled from the spec: the mate score sentinel from `types.h` (not in the
given source); the exact magnitude is irrelevant to the formatting contract. -/
def VALUE_MATE : Int := 32000

/-- Modelled from the spec: the infinity sentinel bounding every real score. -/
def VALUE_INFINITE : Int := 32001

/-- Modelled from the spec: the edge of the mate window; scores of at least
this magnitude denote a forced mate within the maximal ply horizon. -/
def VALUE_MATE_IN_MAX_PLY : Int := VALUE_MATE - 2 * 246

/-- Modelled from the spec: the centipawn scaling constant (the endgame pawn
value) used to scale raw scores down to protocol centipawns. -/
def PawnValueEg : Int := 208

/-- Plies-to-mate converted to signed moves-to-mate, the C++ expression
`(v > 0 ? VALUE_MATE - v + 1 : -VALUE_MATE - v) / 2` with truncating integer
division. -/
def movesToMate (v : Int) : Int :=
  Int.tdiv (if 0 < v then VALUE_MATE - v + 1 else -VALUE_MATE - v) 2

namespace UCI

/-- Embeds `UCI::value(v)`: scores strictly inside the mate window format as
`cp <n>` (raw score scaled by 100 over the pawn value, truncating division);
scores at or beyond the window edge format as `mate <k>` with `k` the signed
moves-to-mate. -/
def value (v : Int) : String :=
  if |v| < VALUE_MATE_IN_MAX_PLY then
    "cp " ++ toString (Int.tdiv (v * 100) PawnValueEg)
  else
    "mate " ++ toString (movesToMate v)

end UCI

/-- The FEN string of the initial position, `StartFEN` in the source. -/
def StartFEN : String := "rnbqkbnr/pppppppp/8/8/8/8/PPPPPPPP/RNBQKBNR w KQkq - 0 1"

/-- The move-replay loop at the bottom of `position()`: read a token, decode
it against the current position, and while the decode yields a real move,
append a fresh state snapshot and apply the move; stop at the first token
that decodes to `MOVE_NONE` (or at end of input). -/
def replayMoves (legal : Pos → List Mv) (pos : Pos) (states : List StateInfo) :
    List String → Pos × List StateInfo
  | [] => (pos, states)
  | t :: ts =>
    let m := UCI.to_move legal pos t
    if m = Mv.NONE then (pos, states)
    else replayMoves legal (pos.do_move m) (states ++ [StateInfo.unit]) ts

/-- The FEN accumulation of the `fen` branch: `fen += token + " "` over the
tokens before `moves`. (The same concatenation shape builds the one-shot
command line from `argv` in `UCI::loop`.) -/
def fenJoin (l : List String) : String :=
  l.foldl (fun acc t => acc ++ t ++ " ") ""

/-- Embeds `position(pos, is, states)`: first token `startpos` loads the standard
layout and consumes one further token (the `moves` keyword, if any); first
token `fen` concatenates tokens up to a `moves` token into a FEN; any other
first token (or an empty remainder) returns with no state change. On success
the old chain is dropped, a fresh one-element chain is created, the position
is set from the FEN and the chess960 option, and the trailing move list is
replayed. -/
def position (legal : Pos → List Mv) (c960 : Bool) (pos : Pos)
    (states : List StateInfo) (tokens : List String) : Pos × List StateInfo :=
  match tokens with
  | [] => (pos, states)
  | tok :: rest =>
    if tok = "startpos" then
      replayMoves legal (Pos.set StartFEN c960) [StateInfo.unit] (rest.drop 1)
    else if tok = "fen" then
      let fen := fenJoin (rest.takeWhile (fun t => t != "moves"))
      replayMoves legal (Pos.set fen c960) [StateInfo.unit]
        ((rest.dropWhile (fun t => t != "moves")).drop 1)
    else (pos, states)

/-- Direct replay of a token list from a root position: decode each token
against the evolving position and apply it. This is the claim-side notion of
"the direct replay of those moves from the given root". -/
def directReplay (legal : Pos → List Mv) (pos : Pos) : List String → Pos
  | [] => pos
  | t :: ts => directReplay legal (pos.do_move (UCI.to_move legal pos t)) ts

/-- All tokens of the list decode to real (non-`MOVE_NONE`) moves when read in
order against the evolving position. -/
inductive DecodesAll (legal : Pos → List Mv) : Pos → List String → Prop
  | nil (pos : Pos) : DecodesAll legal pos []
  | cons (pos : Pos) (t : String) (ts : List String) :
      UCI.to_move legal pos t ≠ Mv.NONE →
      DecodesAll legal (pos.do_move (UCI.to_move legal pos t)) ts →
      DecodesAll legal pos (t :: ts)

/-- The name/value joining of `setoption`: tokens joined with single spaces,
the C++ accumulation `acc += (acc.empty() ? "" : " ") + token`. -/
def joinSp (l : List String) : String :=
  l.foldl (fun acc t => acc ++ (if acc = "" then "" else " ") ++ t) ""

/-- Embeds `setoption(is)`: consume (and never examine) the first token of the
remainder (the `name` keyword), join the tokens before a `value` token into
the option name, join the remaining tokens into the value; assign if the name
is a key of the table, otherwise leave the table unchanged and emit the
unrecognized-option notice. Returns the table and the emitted lines.
(The side effects of `Option::operator=` live in the external configuration
subsystem; the model updates the stored string.) -/
def setoption (opts : List (String × String)) (tokens : List String) :
    List (String × String) × List String :=
  let rest := tokens.drop 1
  let name := joinSp (rest.takeWhile (fun t => t != "value"))
  let value := joinSp ((rest.dropWhile (fun t => t != "value")).drop 1)
  if opts.any (fun kv => kv.1 == name) then
    (opts.map (fun kv => if kv.1 = name then (kv.1, value) else kv), [])
  else
    (opts, ["No such option: " ++ name])

/-- Embeds `Search::LimitsType` as consumed by `go()`: per-side time and increment,
the bounded-search fields, the infinite flag (an int in the source), the
restricted root-move list, and the start timestamp. Fields default to zero as
the C++ constructor zero-fills them. -/
structure LimitsType where
  timeW : Int := 0
  timeB : Int := 0
  incW : Int := 0
  incB : Int := 0
  movestogo : Int := 0
  depth : Int := 0
  nodes : Int := 0
  movetime : Int := 0
  mate : Int := 0
  perft : Int := 0
  infinite : Int := 0
  searchmoves : List Mv := []
  startTime : Int := 0

/-- The token loop of `go()`. `searchmoves` must be last: every remaining
token is decoded against the current position and pushed onto the
restricted-move list. Each numeric keyword extracts one integer from the
stream; a failed extraction zero-fills the field and puts the stream in the
fail state, ending the loop (the C++ stream contract, modelled at token
granularity). `infinite` and `ponder` set flags; unknown tokens are silently
ignored. -/
def goLoop (legal : Pos → List Mv) (pos : Pos) :
    List String → LimitsType → Bool → LimitsType × Bool
  | [], limits, pm => (limits, pm)
  | tok :: ts, limits, pm =>
    if tok = "searchmoves" then
      ({ limits with
         searchmoves := limits.searchmoves
           ++ List.map (fun t => UCI.to_move legal pos t) ts }, pm)
    else if tok = "wtime" then
      match ts with
      | [] => ({ limits with timeW := 0 }, pm)
      | n :: ts2 =>
        match n.toInt? with
        | some x => goLoop legal pos ts2 { limits with timeW := x } pm
        | none => ({ limits with timeW := 0 }, pm)
    else if tok = "btime" then
      match ts with
      | [] => ({ limits with timeB := 0 }, pm)
      | n :: ts2 =>
        match n.toInt? with
        | some x => goLoop legal pos ts2 { limits with timeB := x } pm
        | none => ({ limits with timeB := 0 }, pm)
    else if tok = "winc" then
      match ts with
      | [] => ({ limits with incW := 0 }, pm)
      | n :: ts2 =>
        match n.toInt? with
        | some x => goLoop legal pos ts2 { limits with incW := x } pm
        | none => ({ limits with incW := 0 }, pm)
    else if tok = "binc" then
      match ts with
      | [] => ({ limits with incB := 0 }, pm)
      | n :: ts2 =>
        match n.toInt? with
        | some x => goLoop legal pos ts2 { limits with incB := x } pm
        | none => ({ limits with incB := 0 }, pm)
    else if tok = "movestogo" then
      match ts with
      | [] => ({ limits with movestogo := 0 }, pm)
      | n :: ts2 =>
        match n.toInt? with
        | some x => goLoop legal pos ts2 { limits with movestogo := x } pm
        | none => ({ limits with movestogo := 0 }, pm)
    else if tok = "depth" then
      match ts with
      | [] => ({ limits with depth := 0 }, pm)
      | n :: ts2 =>
        match n.toInt? with
        | some x => goLoop legal pos ts2 { limits with depth := x } pm
        | none => ({ limits with depth := 0 }, pm)
    else if tok = "nodes" then
      match ts with
      | [] => ({ limits with nodes := 0 }, pm)
      | n :: ts2 =>
        match n.toInt? with
        | some x => goLoop legal pos ts2 { limits with nodes := x } pm
        | none => ({ limits with nodes := 0 }, pm)
    else if tok = "movetime" then
      match ts with
      | [] => ({ limits with movetime := 0 }, pm)
      | n :: ts2 =>
        match n.toInt? with
        | some x => goLoop legal pos ts2 { limits with movetime := x } pm
        | none => ({ limits with movetime := 0 }, pm)
    else if tok = "mate" then
      match ts with
      | [] => ({ limits with mate := 0 }, pm)
      | n :: ts2 =>
        match n.toInt? with
        | some x => goLoop legal pos ts2 { limits with mate := x } pm
        | none => ({ limits with mate := 0 }, pm)
    else if tok = "perft" then
      match ts with
      | [] => ({ limits with perft := 0 }, pm)
      | n :: ts2 =>
        match n.toInt? with
        | some x => goLoop legal pos ts2 { limits with perft := x } pm
        | none => ({ limits with perft := 0 }, pm)
    else if tok = "infinite" then goLoop legal pos ts { limits with infinite := 1 } pm
    else if tok = "ponder" then goLoop legal pos ts limits true
    else goLoop legal pos ts limits pm

/-- Embeds `go(pos, is, states)`: capture the start timestamp as early as possible,
parse the limits, and hand them to the external `Threads.start_thinking`.
Returns the parsed limits and the ponder flag that are handed off. -/
def go (legal : Pos → List Mv) (clockNow : Int) (pos : Pos)
    (tokens : List String) : LimitsType × Bool :=
  goLoop legal pos tokens { startTime := clockNow } false

/-- Helper of `tokenize`: split a character list at spaces, accumulating the
current token in reverse. -/
def tokenizeAux (acc : List Char) : List Char → List String
  | [] => if acc.isEmpty then [] else [⟨acc.reverse⟩]
  | c :: cs =>
    if c = ' ' then
      if acc.isEmpty then tokenizeAux [] cs
      else ⟨acc.reverse⟩ :: tokenizeAux [] cs
    else tokenizeAux (c :: acc) cs

/-- Whitespace tokenization of one command line, the effect of repeated
`is >> token` extraction. -/
def tokenize (s : String) : List String := tokenizeAux [] s.data

/-- Modelled from the spec: reading an option of the table as a boolean, as
`Options["UCI_Chess960"]` does through the external option class (values are
interpreted contextually by consumers). -/
def optBool (opts : List (String × String)) (name : String) : Bool :=
  opts.any (fun kv => kv.1 == name && kv.2 == "true")

/-- The external inputs of the bench harness: the clock (successive `now()`
results, indexed by call ordinal) and the node count the external search
reports for each completed `go` (indexed by `go` ordinal). -/
structure BenchEnv where
  clock : Nat → Int
  searchNodes : Nat → Nat

/-- The running state of `bench()`: the position, chain, and option table the
replayed handlers act on, the accumulated node total, the timestamp the total
elapsed time is measured from, the number of `now()` calls made so far, and
the ordinal of the next `go` entry. -/
structure BenchState where
  pos : Pos
  states : List StateInfo
  opts : List (String × String)
  nodes : Nat
  elapsed : Int
  tick : Nat
  goCount : Nat

/-- One iteration of the bench loop over a scripted command. A `go` entry
takes a lap timestamp, runs the search to completion externally, accumulates
its reported nodes, and takes the lap-end timestamp (the two `now()` calls of
the source; the lap rate is printed only). `eval` prints only. `setoption`
and `position` dispatch to the same handlers as the interactive loop.
`ucinewgame` resets the elapsed-time origin to the current `now()` but not
the node total. Any other entry does nothing. -/
def benchStep (legal : Pos → List Mv) (env : BenchEnv) (st : BenchState)
    (cmd : String) : BenchState :=
  let tok := (tokenize cmd).headD ""
  if tok = "go" then
    { st with nodes := st.nodes + env.searchNodes st.goCount,
              tick := st.tick + 2, goCount := st.goCount + 1 }
  else if tok = "eval" then st
  else if tok = "setoption" then
    { st with opts := (setoption st.opts (tokenize cmd).tail).1 }
  else if tok = "position" then
    let r := position legal (optBool st.opts "UCI_Chess960") st.pos st.states
      (tokenize cmd).tail
    { st with pos := r.1, states := r.2 }
  else if tok = "ucinewgame" then
    { st with elapsed := env.clock st.tick, tick := st.tick + 1 }
  else st

/-- Embeds `bench(pos, args, states)`: replay the scripted command list through the
shared handlers, then report the summary. The returned integer is the total
elapsed time printed at the end, `now() - elapsed + 1`, with the `+ 1`
ensuring positivity to avoid a divide by zero in the nodes-per-second
report. -/
def bench (legal : Pos → List Mv) (env : BenchEnv) (pos : Pos)
    (states : List StateInfo) (opts : List (String × String))
    (list : List String) : BenchState × Int :=
  let st0 : BenchState :=
    { pos := pos, states := states, opts := opts, nodes := 0,
      elapsed := env.clock 0, tick := 1, goCount := 0 }
  let st := list.foldl (benchStep legal env) st0
  (st, env.clock st.tick - st.elapsed + 1)

/-- The observable state of the session loop: the position and its chain, the
option table, the shared stop and ponder flags of the external thread pool,
and the emitted output lines. Output produced by external subsystems
(identity text, board dumps, evaluation traces, compiler text, bench
summaries) is summarized as one opaque marker line each. -/
structure LoopState where
  pos : Pos
  states : List StateInfo
  opts : List (String × String)
  stop : Bool
  ponder : Bool
  out : List String

/-- One dispatch of the session loop body on a command line: tokenize, take
the first token as the verb, and branch exactly as the source does.
Termination verbs set the shared stop flag; `ponderhit` clears the ponder
flag; `go` hands the parsed limits to the external search and changes no loop
state; diagnostic verbs delegate to external subsystems; anything else prints
the unrecognized-command notice. -/
def dispatchCmd (legal : Pos → List Mv) (cmd : String) (st : LoopState) :
    LoopState :=
  let token := (tokenize cmd).headD ""
  if token = "quit" ∨ token = "stop" then { st with stop := true }
  else if token = "ponderhit" then { st with ponder := false }
  else if token = "uci" then { st with out := st.out ++ ["id/options/uciok"] }
  else if token = "setoption" then
    let r := setoption st.opts (tokenize cmd).tail
    { st with opts := r.1, out := st.out ++ r.2 }
  else if token = "go" then st
  else if token = "position" then
    let r := position legal (optBool st.opts "UCI_Chess960") st.pos st.states
      (tokenize cmd).tail
    { st with pos := r.1, states := r.2 }
  else if token = "ucinewgame" then st
  else if token = "isready" then { st with out := st.out ++ ["readyok"] }
  else if token = "flip" ∨ token = "bench" ∨ token = "d" ∨ token = "eval"
       ∨ token = "compiler" then st
  else { st with out := st.out ++ ["Unknown command: " ++ cmd] }

/-- The interactive session loop (`argc == 1`), driven by the remaining input
lines; an exhausted input list is the end-of-input condition of `getline`, on
which the body runs once more with `cmd = "quit"`. A line whose verb is
`quit` ends the loop after its dispatch. -/
def loopRun (legal : Pos → List Mv) : List String → LoopState → LoopState
  | [], st => dispatchCmd legal "quit" st
  | line :: rest, st =>
    let st2 := dispatchCmd legal line st
    if (tokenize line).headD "" = "quit" then st2 else loopRun legal rest st2

namespace UCI

/-- Embeds `UCI::loop(argc, argv)`: set up the start position with a one-element
chain, then either run the interactive loop on the input stream, or, when
command line arguments were pre-supplied, synthesize one command line from
them and dispatch exactly once. -/
def loop (legal : Pos → List Mv) (opts : List (String × String))
    (args : List String) (input : List String) : LoopState :=
  let st0 : LoopState :=
    { pos := Pos.set StartFEN false, states := [StateInfo.unit], opts := opts,
      stop := false, ponder := false, out := [] }
  match args with
  | [] => loopRun legal input st0
  | _ => dispatchCmd legal (fenJoin args) st0

end UCI

/-! ### Supporting lemmas -/

theorem data_append (a b : String) : (a ++ b).data = a.data ++ b.data := rfl

/-- Two strings with distinct head characters after distinct literal prefixes
are never equal; specialized to the `cp ` and `mate ` prefixes. -/
theorem cp_ne_mate (r s : String) : "cp " ++ r ≠ "mate " ++ s := by
  intro h
  have hd := congrArg String.data h
  rw [data_append, data_append] at hd
  simp only [show ("cp " : String).data = ['c', 'p', ' '] from rfl,
    show ("mate " : String).data = ['m', 'a', 't', 'e', ' '] from rfl] at hd
  simp at hd

/-- Lemma: `find?` on a list containing an element satisfying the predicate returns
some element that satisfies the predicate and belongs to the list. -/
theorem find?_of_mem {α : Type} {p : α → Bool} {l : List α} {m : α}
    (hm : m ∈ l) (hp : p m = true) :
    ∃ a, l.find? p = some a ∧ p a = true ∧ a ∈ l := by
  induction l with
  | nil => cases hm
  | cons b bs ih =>
    by_cases hb : p b = true
    · exact ⟨b, by rw [List.find?_cons_of_pos _ hb], hb, List.mem_cons_self b bs⟩
    · rcases List.mem_cons.mp hm with rfl | hmem
      · exact absurd hp hb
      · obtain ⟨a, hf, hpa, hma⟩ := ih hmem
        exact ⟨a, by rw [List.find?_cons_of_neg _ hb]; exact hf, hpa,
          List.mem_cons_of_mem _ hma⟩

/-- The promotion letter table contains only lowercase letters and the space,
all fixed points of ASCII lowercasing, at every index. -/
theorem asciiToLower_promoChar (p : Nat) :
    asciiToLower ((" pnbrqk".data).getD p ' ') = (" pnbrqk".data).getD p ' ' := by
  have hdata : (" pnbrqk" : String).data = [' ', 'p', 'n', 'b', 'r', 'q', 'k'] := rfl
  rw [hdata]
  rcases p with _ | _ | _ | _ | _ | _ | _ | p
  · decide
  · decide
  · decide
  · decide
  · decide
  · decide
  · decide
  · have : ([' ', 'p', 'n', 'b', 'r', 'q', 'k'].getD (p + 7) ' ') = ' ' := by
      simp [List.getD]
    rw [this]; decide

/-- Normalization fixes any five-character string whose last character is a
fixed point of ASCII lowercasing. -/
theorem norm5_five (a b c d e : Char) (he : asciiToLower e = e) :
    UCI.norm5 ⟨[a, b, c, d, e]⟩ = ⟨[a, b, c, d, e]⟩ := by
  have h1 : (⟨[a, b, c, d, e]⟩ : String).length = 5 := rfl
  rw [UCI.norm5, if_pos h1]
  rw [show [a, b, c, d, e].getD 4 ' ' = e from rfl, he]
  rfl

/-- Normalization fixes the concatenation of two square renderings (a
four-character string). -/
theorem norm5_sq (a b : Nat) :
    UCI.norm5 (UCI.square a ++ UCI.square b) = UCI.square a ++ UCI.square b := by
  have h1 : (UCI.square a ++ UCI.square b).length = 4 := rfl
  rw [UCI.norm5, if_neg (by rw [h1]; decide)]

/-- Normalization fixes a promotion rendering (two squares and a suffix
letter fixed by lowercasing). -/
theorem norm5_sq_push (a b : Nat) (e : Char) (he : asciiToLower e = e) :
    UCI.norm5 ((UCI.square a ++ UCI.square b).push e)
      = (UCI.square a ++ UCI.square b).push e := by
  show UCI.norm5 ⟨[Char.ofNat (97 + file_of a), Char.ofNat (49 + rank_of a),
    Char.ofNat (97 + file_of b), Char.ofNat (49 + rank_of b), e]⟩ = _
  rw [norm5_five _ _ _ _ _ he]
  rfl

/-- Normalizing a rendered move text is the identity: the only 5-character
renderings are promotions, whose final letter is already lowercase. -/
theorem norm5_move (m : Mv) (c : Bool) : UCI.norm5 (UCI.move m c) = UCI.move m c := by
  cases m with
  | NONE => rfl
  | NULL => rfl
  | mk d =>
    simp only [UCI.move]
    by_cases hp : d.mtype = MoveType.PROMOTION
    · rw [if_pos hp]
      exact norm5_sq_push _ _ _ (asciiToLower_promoChar d.promo)
    · rw [if_neg hp]
      exact norm5_sq _ _

/-- Lemma: `takeWhile` over a list whose front satisfies the predicate, stopped by a
failing element. -/
theorem takeWhile_front {α : Type} {p : α → Bool} :
    ∀ (xs : List α) (y : α) (ys : List α),
      (∀ x ∈ xs, p x = true) → p y = false →
      (xs ++ y :: ys).takeWhile p = xs := by
  intro xs y ys hxs hy
  induction xs with
  | nil =>
    rw [List.nil_append, List.takeWhile_cons_of_neg (by rw [hy]; decide)]
  | cons a as ih =>
    have ha : p a = true := hxs a (List.mem_cons_self a as)
    rw [List.cons_append, List.takeWhile_cons_of_pos ha,
      ih (fun x hx => hxs x (List.mem_cons_of_mem a hx))]

/-- Lemma: `dropWhile` over a list whose front satisfies the predicate, stopped by a
failing element. -/
theorem dropWhile_front {α : Type} {p : α → Bool} :
    ∀ (xs : List α) (y : α) (ys : List α),
      (∀ x ∈ xs, p x = true) → p y = false →
      (xs ++ y :: ys).dropWhile p = y :: ys := by
  intro xs y ys hxs hy
  induction xs with
  | nil =>
    rw [List.nil_append, List.dropWhile_cons_of_neg (by rw [hy]; decide)]
  | cons a as ih =>
    have ha : p a = true := hxs a (List.mem_cons_self a as)
    rw [List.cons_append, List.dropWhile_cons_of_pos ha,
      ih (fun x hx => hxs x (List.mem_cons_of_mem a hx))]

/-- The replay loop appends exactly one state snapshot per decoded move and
computes the direct replay, as long as every token decodes to a real move. -/
theorem replayMoves_spec (legal : Pos → List Mv) {pos : Pos} {ms : List String}
    (h : DecodesAll legal pos ms) :
    ∀ chain : List StateInfo,
      (replayMoves legal pos chain ms).2.length = chain.length + ms.length ∧
      (replayMoves legal pos chain ms).1 = directReplay legal pos ms := by
  induction h with
  | nil pos => intro chain; simp [replayMoves, directReplay]
  | cons pos t ts hne _ ih =>
    intro chain
    simp only [replayMoves, directReplay]
    rw [if_neg hne]
    obtain ⟨hl, hp⟩ := ih (chain ++ [StateInfo.unit])
    refine ⟨?_, hp⟩
    rw [hl]
    simp only [List.length_append, List.length_cons, List.length_nil]
    omega

/-! ### Claim theorems -/

/-- C1: for every position and every move in its legal-move list, decoding the
encoding round-trips: `UCI::to_move(pos, UCI::move(m, pos.is_chess960()))`
returns `m` itself. Legality is external (the oracle `legal`); the external
move-generation contract enters as the hypothesis that distinct legal moves of
a position render to distinct texts, which is what makes `m` the first legal
move whose rendered text equals its own. -/
theorem to_move_move_roundtrip (legal : Pos → List Mv) (pos : Pos) (m : Mv)
    (hm : m ∈ legal pos)
    (hinj : ∀ m1 ∈ legal pos, ∀ m2 ∈ legal pos,
      UCI.move m1 pos.chess960 = UCI.move m2 pos.chess960 → m1 = m2) :
    UCI.to_move legal pos (UCI.move m pos.chess960) = m := by
  have hp : (UCI.norm5 (UCI.move m pos.chess960) == UCI.move m pos.chess960) = true := by
    rw [norm5_move]
    simp
  obtain ⟨a, hf, hpa, hma⟩ := find?_of_mem
    (p := fun m2 => UCI.norm5 (UCI.move m pos.chess960) == UCI.move m2 pos.chess960)
    hm hp
  have heq : UCI.move m pos.chess960 = UCI.move a pos.chess960 := by
    rw [norm5_move] at hpa
    exact eq_of_beq hpa
  have ham : a = m := hinj a hma m hm heq.symm
  simp only [UCI.to_move]
  rw [hf, ham]

/-- Witness for C1 at a concrete position: a one-move oracle around the move
e2e4; its encoding decodes back to it. -/
theorem to_move_move_roundtrip_witness :
    UCI.to_move (fun _ => [Mv.mk ⟨12, 28, MoveType.NORMAL, 0⟩])
      (Pos.set StartFEN false)
      (UCI.move (Mv.mk ⟨12, 28, MoveType.NORMAL, 0⟩)
        (Pos.set StartFEN false).chess960)
      = Mv.mk ⟨12, 28, MoveType.NORMAL, 0⟩ :=
  to_move_move_roundtrip _ _ _ (by decide) (by decide)

/-- C2: for every value strictly inside the sentinel range, a score strictly
inside the mate window formats with the `cp ` prefix and never the `mate `
prefix; a score at or beyond the window edge formats as `mate ` followed by
the plies-to-mate converted to signed moves-to-mate. -/
theorem value_mate_window (v : Int)
    (h1 : -VALUE_INFINITE < v) (h2 : v < VALUE_INFINITE) :
    (|v| < VALUE_MATE_IN_MAX_PLY →
      (∃ r, UCI.value v = "cp " ++ r) ∧ ∀ r, UCI.value v ≠ "mate " ++ r) ∧
    (VALUE_MATE_IN_MAX_PLY ≤ |v| →
      UCI.value v = "mate " ++ toString (movesToMate v)) := by
  constructor
  · intro hlt
    rw [UCI.value, if_pos hlt]
    exact ⟨⟨_, rfl⟩, fun r => cp_ne_mate _ r⟩
  · intro hge
    rw [UCI.value, if_neg (not_lt.mpr hge)]

/-- Witness for C2 at the concrete scores 100 (inside the window) and 31900
(a forced mate). -/
theorem value_mate_window_witness :
    (∃ r, UCI.value 100 = "cp " ++ r) ∧
    UCI.value 31900 = "mate " ++ toString (movesToMate 31900) :=
  ⟨((value_mate_window 100 (by decide) (by decide)).1 (by decide)).1,
   (value_mate_window 31900 (by decide) (by decide)).2 (by decide)⟩

/-- C4: a `position` command whose first token is neither `startpos` nor
`fen` returns without any state change, whatever the remaining tokens are. -/
theorem position_other_token_noop (legal : Pos → List Mv) (c960 : Bool)
    (pos : Pos) (states : List StateInfo) (t : String) (rest : List String)
    (h1 : t ≠ "startpos") (h2 : t ≠ "fen") :
    position legal c960 pos states (t :: rest) = (pos, states) := by
  simp only [position]
  rw [if_neg h1, if_neg h2]

/-- Witness for C4 at a concrete unrecognized first token. -/
theorem position_other_token_noop_witness :
    position (fun _ => []) false (Pos.set StartFEN false) [StateInfo.unit]
      ["xyz", "moves", "e2e4"] = (Pos.set StartFEN false, [StateInfo.unit]) :=
  position_other_token_noop _ _ _ _ _ _ (by decide) (by decide)

/-- C9: `UCI::move` renders the null-move sentinel as the literal `0000` and
the none sentinel as the literal `(none)`, for both values of the chess960
flag. -/
theorem move_sentinel_text (c : Bool) :
    UCI.move Mv.NULL c = "0000" ∧ UCI.move Mv.NONE c = "(none)" :=
  ⟨rfl, rfl⟩

/-- C10: the `setoption` handler never inspects the first token of its
remainder: any first token produces exactly the table effect and output of
the literal `name` keyword. -/
theorem setoption_first_token_ignored (opts : List (String × String))
    (t : String) (rest : List String) :
    setoption opts (t :: rest) = setoption opts ("name" :: rest) := rfl

/-- C3: a `position` command beginning `startpos` or `fen` whose trailing
move list decodes entirely to legal moves leaves a state chain of exactly
`k + 1` elements for `k` moves, and a position equal to the direct replay of
those moves from the parsed root. -/
theorem position_cmd_chain_and_replay (legal : Pos → List Mv) (c960 : Bool)
    (pos : Pos) (states : List StateInfo) (ms fenToks : List String)
    (hfen : "moves" ∉ fenToks)
    (h1 : DecodesAll legal (Pos.set StartFEN c960) ms)
    (h2 : DecodesAll legal (Pos.set (fenJoin fenToks) c960) ms) :
    ((position legal c960 pos states ("startpos" :: "moves" :: ms)).2.length
        = ms.length + 1 ∧
     (position legal c960 pos states ("startpos" :: "moves" :: ms)).1
        = directReplay legal (Pos.set StartFEN c960) ms) ∧
    ((position legal c960 pos states ("fen" :: (fenToks ++ "moves" :: ms))).2.length
        = ms.length + 1 ∧
     (position legal c960 pos states ("fen" :: (fenToks ++ "moves" :: ms))).1
        = directReplay legal (Pos.set (fenJoin fenToks) c960) ms) := by
  have hxs : ∀ x ∈ fenToks, (x != "moves") = true := by
    intro x hx
    simp only [bne_iff_ne, ne_eq]
    intro hc
    exact hfen (hc ▸ hx)
  have hy : (("moves" : String) != "moves") = false := by simp
  constructor
  · have hstart : position legal c960 pos states ("startpos" :: "moves" :: ms)
        = replayMoves legal (Pos.set StartFEN c960) [StateInfo.unit] ms := rfl
    rw [hstart]
    obtain ⟨hl, hp⟩ := replayMoves_spec legal h1 [StateInfo.unit]
    refine ⟨?_, hp⟩
    rw [hl]
    simp [Nat.add_comm]
  · have hstep : position legal c960 pos states ("fen" :: (fenToks ++ "moves" :: ms))
        = replayMoves legal
            (Pos.set (fenJoin ((fenToks ++ "moves" :: ms).takeWhile
              (fun t => t != "moves"))) c960)
            [StateInfo.unit]
            (((fenToks ++ "moves" :: ms).dropWhile (fun t => t != "moves")).drop 1)
        := rfl
    have hfenrun : position legal c960 pos states ("fen" :: (fenToks ++ "moves" :: ms))
        = replayMoves legal (Pos.set (fenJoin fenToks) c960) [StateInfo.unit] ms := by
      rw [hstep, takeWhile_front fenToks "moves" ms hxs hy,
          dropWhile_front fenToks "moves" ms hxs hy]
      rfl
    rw [hfenrun]
    obtain ⟨hl, hp⟩ := replayMoves_spec legal h2 [StateInfo.unit]
    refine ⟨?_, hp⟩
    rw [hl]
    simp [Nat.add_comm]

/-- Witness for C3: a concrete `position startpos moves` and
`position fen <tok> moves` with an empty trailing move list give one-element
chains and the root positions themselves. -/
theorem position_cmd_chain_and_replay_witness :
    ((position (fun _ => []) false (Pos.set "p" false) []
        ("startpos" :: "moves" :: ([] : List String))).2.length = 0 + 1 ∧
     (position (fun _ => []) false (Pos.set "p" false) []
        ("startpos" :: "moves" :: ([] : List String))).1
        = directReplay (fun _ => []) (Pos.set StartFEN false) []) ∧
    ((position (fun _ => []) false (Pos.set "p" false) []
        ("fen" :: (["k7/8/8/8/8/8/8/7K w - - 0 1"] ++ "moves" :: ([] : List String)))).2.length
        = 0 + 1 ∧
     (position (fun _ => []) false (Pos.set "p" false) []
        ("fen" :: (["k7/8/8/8/8/8/8/7K w - - 0 1"] ++ "moves" :: ([] : List String)))).1
        = directReplay (fun _ => [])
            (Pos.set (fenJoin ["k7/8/8/8/8/8/8/7K w - - 0 1"]) false) []) :=
  position_cmd_chain_and_replay (fun _ => []) false (Pos.set "p" false) [] [] _
    (by decide) (DecodesAll.nil _) (DecodesAll.nil _)

/-- C5: a `setoption name X value Y` command whose joined name is not a key
of the table leaves the table completely unchanged and emits exactly the
unrecognized-option notice naming X. -/
theorem setoption_unknown_name (opts : List (String × String))
    (xs ys : List String) (hxs : "value" ∉ xs)
    (hname : ∀ kv ∈ opts, kv.1 ≠ joinSp xs) :
    setoption opts ("name" :: (xs ++ "value" :: ys))
      = (opts, ["No such option: " ++ joinSp xs]) := by
  have hxs' : ∀ x ∈ xs, (x != "value") = true := by
    intro x hx
    simp only [bne_iff_ne, ne_eq]
    intro hc
    exact hxs (hc ▸ hx)
  have hy : (("value" : String) != "value") = false := by simp
  have hany : opts.any (fun kv => kv.1 == joinSp xs) = false := by
    rw [List.any_eq_false]
    intro kv hkv
    simpa using hname kv hkv
  simp only [setoption, List.drop_succ_cons, List.drop_zero]
  rw [takeWhile_front xs "value" ys hxs' hy]
  rw [if_neg (by simp [hany])]

/-- Witness for C5: setting an unknown option name leaves a concrete table
unchanged and produces the notice. -/
theorem setoption_unknown_name_witness :
    setoption [("Hash", "16")] ("name" :: (["Foo"] ++ "value" :: ["Bar"]))
      = ([("Hash", "16")], ["No such option: " ++ joinSp ["Foo"]]) :=
  setoption_unknown_name [("Hash", "16")] ["Foo"] ["Bar"] (by decide) (by decide)

/-- C6: once `searchmoves` is read by the `go` limit parser, every remaining
token is decoded against the current position and the decode result is
appended to the restricted-move list (a failed decode appends the `MOVE_NONE`
sentinel rather than being skipped), so the resulting list is the previous
list extended by exactly one entry per remaining token. -/
theorem go_searchmoves_appends (legal : Pos → List Mv) (pos : Pos)
    (ts : List String) (limits : LimitsType) (pm : Bool) :
    (goLoop legal pos ("searchmoves" :: ts) limits pm).1.searchmoves
        = limits.searchmoves ++ List.map (fun t => UCI.to_move legal pos t) ts ∧
    (goLoop legal pos ("searchmoves" :: ts) limits pm).1.searchmoves.length
        = limits.searchmoves.length + ts.length := by
  have h : goLoop legal pos ("searchmoves" :: ts) limits pm
      = ({ limits with
           searchmoves := limits.searchmoves
             ++ List.map (fun t => UCI.to_move legal pos t) ts }, pm) := by
    unfold goLoop
    rfl
  rw [h]
  exact ⟨rfl, by simp⟩

/-- C7: in the interactive loop, an end-of-input condition runs the body
exactly as if the command `quit` had been received: the resulting state
equals both one dispatch of `quit` and a full run on the single line `quit`,
the stop flag is requested, and the loop terminates without re-entering the
read state. -/
theorem loop_eof_is_quit (legal : Pos → List Mv) (st : LoopState) :
    loopRun legal [] st = dispatchCmd legal "quit" st ∧
    loopRun legal [] st = loopRun legal ["quit"] st ∧
    (loopRun legal [] st).stop = true := by
  have htok : (tokenize "quit").headD "" = "quit" := by decide
  refine ⟨rfl, ?_, ?_⟩
  · show dispatchCmd legal "quit" st = _
    simp only [loopRun]
    rw [if_pos htok]
  · show (dispatchCmd legal "quit" st).stop = true
    simp only [dispatchCmd]
    rw [if_pos (Or.inl htok)]

/-- The invariant of the bench loop: the elapsed-time origin is always some
earlier sample of the clock. -/
theorem benchFold_origin (legal : Pos → List Mv) (env : BenchEnv) :
    ∀ (cmds : List String) (st : BenchState),
      (∃ i, i ≤ st.tick ∧ st.elapsed = env.clock i) →
      ∃ i, i ≤ (cmds.foldl (benchStep legal env) st).tick ∧
        (cmds.foldl (benchStep legal env) st).elapsed = env.clock i := by
  intro cmds
  induction cmds with
  | nil => intro st h; exact h
  | cons cmd rest ih =>
    intro st h
    rw [List.foldl_cons]
    apply ih
    obtain ⟨i, hi, he⟩ := h
    simp only [benchStep]
    split
    · exact ⟨i, by simp; omega, he⟩
    · split
      · exact ⟨i, hi, he⟩
      · split
        · exact ⟨i, hi, he⟩
        · split
          · exact ⟨i, hi, he⟩
          · split
            · exact ⟨st.tick, by simp, rfl⟩
            · exact ⟨i, hi, he⟩

/-- C8: for every scripted command list, the total elapsed time reported by
the bench harness is at least one time unit, even when the clock measured a
zero duration, so the aggregate nodes-per-second division never divides by
zero. The clock is externally monotone (successive `now()` calls never go
backwards). -/
theorem bench_elapsed_pos (legal : Pos → List Mv) (env : BenchEnv)
    (pos : Pos) (states : List StateInfo) (opts : List (String × String))
    (list : List String) (hmono : Monotone env.clock) :
    1 ≤ (bench legal env pos states opts list).2 := by
  simp only [bench]
  obtain ⟨i, hi, he⟩ := benchFold_origin legal env list
    { pos := pos, states := states, opts := opts, nodes := 0,
      elapsed := env.clock 0, tick := 1, goCount := 0 }
    ⟨0, by omega, rfl⟩
  rw [he]
  have := hmono hi
  omega

/-- Witness for C8: a constant clock (a bench run measuring zero duration)
still reports a total elapsed time of at least one. -/
theorem bench_elapsed_pos_witness :
    1 ≤ (bench (fun _ => []) ⟨fun _ => 0, fun _ => 0⟩ (Pos.set StartFEN false)
      [StateInfo.unit] [] ["go", "ucinewgame", "go"]).2 :=
  bench_elapsed_pos _ _ _ _ _ _ monotone_const

end Honey
